import Mathlib

/-!
Verification development for the Valuation Agent repository.

Shallow embedding of the conversation-orchestration core:
* the weighted MGX valuation computed in `ProjectDetail.tsx` (the reactive
  `useEffect` over method values and form weights),
* the weight-balancing handlers `handleDcfWeightChange` / `handleCompsWeightChange`,
* the marker-based valuation extractor (the `DCF`/`COMPS` regex scraping in
  `valuationAgent.ts` `runQuery`),
* the message-log persistence layer (`DatabaseViewer.tsx` `DatabaseManager`:
  `createThread`, `createMessage`, `getActiveThreadByProject`, `getMessagesByThread`),
* the session manager and stream normalizer
  (`valuationAgent.ts`: `startValuation`, `sendMessage`, `restoreConversation`,
  `runQuery`, `persistMessage`).

Numbers are modelled as rationals (`ℚ`); JavaScript `toFixed(2)` is modelled as
round-half-up to hundredths, following the ECMAScript specification (ties pick the
larger candidate).  The external agent collaborator is opaque: its event stream is a
parameter of each turn.
-/

set_option linter.unusedVariables false

namespace ValAgent

/-! ## Weighted MGX valuation (ProjectDetail.tsx, MGX valuation useEffect) -/

/-- A valuation method row as consumed by `ProjectDetail`
(`method_type`, `weight`, optional `calculated_value`). -/
structure Method where
  method_type : String
  weight : ℚ
  calculated_value : Option ℚ
deriving DecidableEq, Repr

/-- `methods.find(m => m.method_type === label)?.calculated_value || 0`:
the value of the first method with the given label, a missing method or an
unset (or zero) value giving `0`. -/
def methodValue (methods : List Method) (label : String) : ℚ :=
  ((methods.find? fun m => m.method_type = label).bind (fun m => m.calculated_value)).getD 0

/-- The MGX weighted valuation `useEffect` of `ProjectDetail.tsx`:
`dcfValue*dcfW + compsValue*compsW` when at least one of the two method values is
strictly positive, otherwise `null` (modelled as `none`).  The weights come from the
form state, not from the method rows. -/
def computeMgx (methods : List Method) (dcfW compsW : ℚ) : Option ℚ :=
  let dcfValue := methodValue methods "DCF"
  let compsValue := methodValue methods "Comps"
  if 0 < dcfValue ∨ 0 < compsValue then
    some (dcfValue * dcfW + compsValue * compsW)
  else
    none

/-! ## Weight balancing handlers (ProjectDetail.tsx) -/

/-- JavaScript `x || d` on numbers, for the `parseFloat(w) || d` fallbacks
(a zero — or unparsable — stored weight falls back to the default). -/
def jsOrDefault (x d : ℚ) : ℚ := if x = 0 then d else x

/-- `Math.max(0, Math.min(1.0, x))`. -/
def clamp01 (x : ℚ) : ℚ := max 0 (min 1 x)

/-- `x.toFixed(2)` read back as a number: round to the nearest hundredth,
ties away from zero for nonnegative `x` (ECMAScript picks the larger candidate). -/
def toFixed2 (x : ℚ) : ℚ := (⌊x * 100 + 1/2⌋ : ℚ) / 100

/-- `handleDcfWeightChange(delta)`: clamp the adjusted DCF weight to [0,1], set the
Comps weight to its complement, store both rounded to two decimals.
Returns the stored pair `(dcfWeight, compsWeight)`. -/
def handleDcfWeightChange (dcfWeight compsWeight delta : ℚ) : ℚ × ℚ :=
  let currentDcf := jsOrDefault dcfWeight (6/10)
  let newDcf := clamp01 (currentDcf + delta)
  let newComps := 1 - newDcf
  (toFixed2 newDcf, toFixed2 newComps)

/-- `handleCompsWeightChange(delta)`: symmetric to `handleDcfWeightChange`. -/
def handleCompsWeightChange (dcfWeight compsWeight delta : ℚ) : ℚ × ℚ :=
  let currentComps := jsOrDefault compsWeight (4/10)
  let newComps := clamp01 (currentComps + delta)
  let newDcf := 1 - newComps
  (toFixed2 newDcf, toFixed2 newComps)

lemma clamp01_nonneg (x : ℚ) : 0 ≤ clamp01 x := le_max_left _ _

lemma clamp01_le_one (x : ℚ) : clamp01 x ≤ 1 := by
  unfold clamp01
  rcases le_total x 1 with h | h
  · simp [min_eq_left h]
  · simp [min_eq_right h]

lemma toFixed2_nonneg {x : ℚ} (h : 0 ≤ x) : 0 ≤ toFixed2 x := by
  unfold toFixed2
  have : (0 : ℤ) ≤ ⌊x * 100 + 1/2⌋ := by
    apply Int.le_floor.mpr
    push_cast
    nlinarith
  positivity

lemma toFixed2_le_one {x : ℚ} (h : x ≤ 1) : toFixed2 x ≤ 1 := by
  unfold toFixed2
  have : ⌊x * 100 + 1/2⌋ ≤ 100 := by
    have h2 : x * 100 + 1/2 < ((101 : ℤ) : ℚ) := by push_cast; nlinarith
    have h4 : ⌊x * 100 + 1/2⌋ < 101 := Int.floor_lt.mpr h2
    omega
  rw [div_le_one (by norm_num)]
  exact_mod_cast this

/-- Rounding both a weight and its complement to two decimals keeps the sum at 1
except when the weight sits exactly halfway between hundredths, where round-half-up
pushes the sum to 1.01. -/
lemma toFixed2_complement_sum (x : ℚ) :
    toFixed2 x + toFixed2 (1 - x) = 1 ∨ toFixed2 x + toFixed2 (1 - x) = 101/100 := by
  unfold toFixed2
  set n := ⌊x * 100 + 1/2⌋ with hn
  set m := ⌊(1 - x) * 100 + 1/2⌋ with hm
  have hn1 : (n : ℚ) ≤ x * 100 + 1/2 := Int.floor_le _
  have hn2 : x * 100 + 1/2 < n + 1 := Int.lt_floor_add_one _
  have hm1 : (m : ℚ) ≤ (1 - x) * 100 + 1/2 := Int.floor_le _
  have hm2 : (1 - x) * 100 + 1/2 < m + 1 := Int.lt_floor_add_one _
  have hub : n + m ≤ 101 := by
    have : (n : ℚ) + m ≤ 101 := by linarith
    exact_mod_cast this
  have hlb : 99 < n + m := by
    have : (99 : ℚ) < n + m := by linarith
    exact_mod_cast this
  have : n + m = 100 ∨ n + m = 101 := by omega
  rcases this with h | h
  · left
    have : ((n : ℚ) + m) = 100 := by exact_mod_cast h
    field_simp
    linarith
  · right
    have : ((n : ℚ) + m) = 101 := by exact_mod_cast h
    field_simp
    linarith

/-! ## Valuation extractor (valuationAgent.ts, runQuery text-block branch)

Model of the two regex scrapes
`/DCF[_\s](?:VALUE|VALUATION):\s*\$?([\d,]+)/i` and
`/COMPS?[_\s](?:VALUE|VALUATION):\s*\$?([\d,]+)/i`
applied with `String.prototype.match` (no global flag: first match only). -/

/-- JavaScript `\s` restricted to the ASCII whitespace characters that can occur in
the assistant text handled here. -/
def isJsSpace (c : Char) : Bool :=
  c = ' ' ∨ c = '\t' ∨ c = '\n' ∨ c = '\r' ∨ c = '\x0b' ∨ c = '\x0c'

/-- Case-insensitive literal match: consume `pat` from the front of `cs`,
returning the remainder. -/
def matchLit : List Char → List Char → Option (List Char)
  | [], cs => some cs
  | _ :: _, [] => none
  | p :: ps, c :: cs => if c.toLower = p.toLower then matchLit ps cs else none

/-- `[_\s]`: one underscore-or-whitespace character. -/
def matchSep : List Char → Option (List Char)
  | [] => none
  | c :: cs => if c = '_' ∨ isJsSpace c then some cs else none

/-- `(?:VALUE|VALUATION):` with the regex alternation order (`VALUE` tried first,
backtracking to `VALUATION` when the following `:` fails). -/
def matchValueWord (cs : List Char) : Option (List Char) :=
  match matchLit "VALUE:".toList cs with
  | some r => some r
  | none => matchLit "VALUATION:".toList cs

/-- `\s*\$?([\d,]+)`: greedy whitespace, optional dollar sign, then the captured
nonempty run of digits and commas. -/
def matchNumber (cs : List Char) : Option (List Char) :=
  let cs1 := cs.dropWhile isJsSpace
  let cs2 := match cs1 with
    | '$' :: r => r
    | _ => cs1
  let digits := cs2.takeWhile fun c => c.isDigit ∨ c = ','
  if digits.isEmpty then none else some digits

/-- `[_\s](?:VALUE|VALUATION):\s*\$?([\d,]+)`: the tail shared by both patterns,
returning the captured group. -/
def matchMarkerTail (cs : List Char) : Option (List Char) :=
  match matchSep cs with
  | none => none
  | some r =>
    match matchValueWord r with
    | none => none
    | some r2 => matchNumber r2

/-- Attempt the DCF pattern at the head of `cs`. -/
def matchDcfAt (cs : List Char) : Option (List Char) :=
  (matchLit "DCF".toList cs).bind matchMarkerTail

/-- Attempt the Comps pattern at the head of `cs` (`COMPS?`: the greedy optional `S`
is tried first, backtracking to the bare `COMP`). -/
def matchCompsAt (cs : List Char) : Option (List Char) :=
  (matchLit "COMP".toList cs).bind fun r =>
    match r with
    | [] => none
    | c :: r2 =>
      if c.toLower = 's' then
        match matchMarkerTail r2 with
        | some cap => some cap
        | none => matchMarkerTail (c :: r2)
      else matchMarkerTail (c :: r2)

/-- Leftmost match: try the pattern at every position, left to right, returning the
first capture — the semantics of non-global `String.prototype.match`. -/
def findFirstMatch (m : List Char → Option (List Char)) : List Char → Option (List Char)
  | [] => m []
  | c :: cs =>
    match m (c :: cs) with
    | some cap => some cap
    | none => findFirstMatch m cs

/-- `parseFloat(capture.replace(/,/g, ''))`: strip the commas and read the digits;
`none` models `NaN` (a capture consisting solely of commas). -/
def parseCapture (cap : List Char) : Option ℕ :=
  let ds := cap.filter fun c => c ≠ ','
  if ds.isEmpty then none
  else some (ds.foldl (fun n c => n * 10 + (c.toNat - '0'.toNat)) 0)

/-- One extraction record: the `{valuationValue, methodType}` metadata of a
`method_valuation_result` message. -/
structure Extraction where
  methodType : String
  valuationValue : Option ℕ
deriving DecidableEq, Repr

/-- The valuation extractor: the DCF scrape followed by the Comps scrape, each
contributing at most one extraction (first match only, no global flag). -/
def extractValuations (text : String) : List Extraction :=
  let cs := text.toList
  (match findFirstMatch matchDcfAt cs with
   | some cap => [⟨"DCF", parseCapture cap⟩]
   | none => []) ++
  (match findFirstMatch matchCompsAt cs with
   | some cap => [⟨"Comps", parseCapture cap⟩]
   | none => [])

example : extractValuations "DCF_VALUE: $2,500,000" = [⟨"DCF", some 2500000⟩] := by decide

/-! ## Message log (DatabaseViewer.tsx, DatabaseManager)

SQLite is modelled by in-memory lists; `datetime('now')` by a strictly increasing
logical clock, so `ORDER BY last_message_at DESC LIMIT 1` is deterministic on
reachable states.  Message metadata is kept structured (the JSON round trip of
`createMessage`/`getMessagesByThread` is the identity on it). -/

/-- Structured message metadata (the union of the metadata shapes produced by the
stream normalizer). -/
inductive MsgMeta where
  | methodValuation (valuationValue : Option ℕ) (methodType : String)
  | toolName (tool : String)
  | codeInfo (tool : String) (language : String)
  | resultInfo (success : Bool) (executionTime : Option ℚ)
deriving DecidableEq, Repr

/-- A row of `conversation_threads`. -/
structure DBThread where
  id : ℕ
  project_id : ℕ
  title : Option String
  status : String
  last_message_at : ℕ
deriving DecidableEq, Repr

/-- A row of `conversation_messages`. -/
structure DBMessage where
  thread_id : ℕ
  type : String
  content : String
  metadata : Option MsgMeta
  sequence_number : ℕ
deriving DecidableEq, Repr

/-- The database state. -/
structure DB where
  threads : List DBThread
  messages : List DBMessage
  nextThreadId : ℕ
  clock : ℕ
deriving DecidableEq, Repr

/-- The empty database. -/
def DB.empty : DB := ⟨[], [], 1, 0⟩

/-- `createThread(projectId, title)`: insert an `active` thread stamped with the
current time; returns the new row. -/
def createThread (db : DB) (projectId : ℕ) (title : Option String) : DB × DBThread :=
  let th : DBThread := ⟨db.nextThreadId, projectId, title, "active", db.clock⟩
  (⟨db.threads ++ [th], db.messages, db.nextThreadId + 1, db.clock + 1⟩, th)

/-- `getActiveThreadByProject(projectId)`: the `status='active'` thread of the
project with the greatest `last_message_at` (`ORDER BY last_message_at DESC LIMIT 1`). -/
def getActiveThreadByProject (db : DB) (projectId : ℕ) : Option DBThread :=
  (db.threads.filter fun t => t.project_id = projectId ∧ t.status = "active").foldl
    (fun acc t =>
      match acc with
      | none => some t
      | some b => if b.last_message_at < t.last_message_at then some t else some b)
    none

/-- `updateThreadLastMessage(id)`: refresh the thread's `last_message_at`. -/
def updateThreadLastMessage (db : DB) (id : ℕ) : DB :=
  { db with
    threads := db.threads.map fun t =>
      if t.id = id then { t with last_message_at := db.clock } else t,
    clock := db.clock + 1 }

/-- `SELECT COALESCE(MAX(sequence_number), 0) + 1 FROM conversation_messages
WHERE thread_id = ?`. -/
def nextSeq (db : DB) (threadId : ℕ) : ℕ :=
  (((db.messages.filter fun m => m.thread_id = threadId).map
    fun m => m.sequence_number).foldr max 0) + 1

/-- `createMessage(threadId, type, content, metadata)`: insert with the next
sequence number and refresh the thread's `last_message_at`; returns the new row. -/
def createMessage (db : DB) (threadId : ℕ) (type : String) (content : String)
    (metadata : Option MsgMeta) : DB × DBMessage :=
  let msg : DBMessage := ⟨threadId, type, content, metadata, nextSeq db threadId⟩
  (updateThreadLastMessage { db with messages := db.messages ++ [msg] } threadId, msg)

/-- `archiveThread(id)`. -/
def archiveThread (db : DB) (id : ℕ) : DB :=
  { db with
    threads := db.threads.map fun t =>
      if t.id = id then { t with status := "archived" } else t }

/-- `getMessagesByThread(threadId)`: the thread's messages
`ORDER BY sequence_number ASC` (a stable sort on the sequence number). -/
def getMessagesByThread (db : DB) (threadId : ℕ) : List DBMessage :=
  (db.messages.filter fun m => m.thread_id = threadId).insertionSort
    fun a b => a.sequence_number ≤ b.sequence_number

/-- A database built from the empty one by a sequence of `createMessage` calls
(thread id, type, content, metadata), interleaved across arbitrary threads. -/
def appendAll (db : DB) : List (ℕ × String × String × Option MsgMeta) → DB
  | [] => db
  | op :: ops => appendAll (createMessage db op.1 op.2.1 op.2.2.1 op.2.2.2).1 ops

lemma le_foldr_max (n : ℕ) (l : List ℕ) (h : n ∈ l) : n ≤ l.foldr max 0 := by
  induction l with
  | nil => cases h
  | cons a l ih =>
    rcases List.mem_cons.mp h with rfl | h
    · exact le_max_left _ _
    · exact (ih h).trans (le_max_right _ _)

/-- The messages of a thread, in insertion order, have strictly increasing
sequence numbers: the freshly assigned `max(existing)+1` exceeds every existing one. -/
lemma filter_pairwise_lt (db : DB) (tid : ℕ)
    (h : (db.messages.filter fun m => m.thread_id = tid).Pairwise
      fun a b => a.sequence_number < b.sequence_number)
    (op : ℕ × String × String × Option MsgMeta) :
    (((createMessage db op.1 op.2.1 op.2.2.1 op.2.2.2).1.messages.filter
      fun m => m.thread_id = tid).Pairwise
        fun a b => a.sequence_number < b.sequence_number) := by
  have hmsg : (createMessage db op.1 op.2.1 op.2.2.1 op.2.2.2).1.messages
      = db.messages ++ [⟨op.1, op.2.1, op.2.2.1, op.2.2.2, nextSeq db op.1⟩] := rfl
  rw [hmsg, List.filter_append]
  by_cases hth : op.1 = tid
  · subst hth
    have hfil : (([⟨op.1, op.2.1, op.2.2.1, op.2.2.2, nextSeq db op.1⟩] :
        List DBMessage).filter fun m => m.thread_id = op.1)
        = [⟨op.1, op.2.1, op.2.2.1, op.2.2.2, nextSeq db op.1⟩] := by
      simp
    rw [hfil, List.pairwise_append]
    refine ⟨h, List.pairwise_singleton _ _, ?_⟩
    intro a ha b hb
    rw [List.mem_singleton] at hb
    subst hb
    show a.sequence_number < nextSeq db op.1
    unfold nextSeq
    have hle : a.sequence_number ≤
        ((db.messages.filter fun m => m.thread_id = op.1).map
          fun m => m.sequence_number).foldr max 0 :=
      le_foldr_max _ _ (List.mem_map_of_mem _ ha)
    omega
  · have hfil : (([⟨op.1, op.2.1, op.2.2.1, op.2.2.2, nextSeq db op.1⟩] :
        List DBMessage).filter fun m => m.thread_id = tid) = [] := by
      simp [hth]
    rw [hfil, List.append_nil]
    exact h

/-- Every database reachable by `createMessage` calls has, for every thread,
strictly increasing sequence numbers in insertion order. -/
lemma appendAll_pairwise (ops : List (ℕ × String × String × Option MsgMeta))
    (db : DB) (tid : ℕ)
    (h : (db.messages.filter fun m => m.thread_id = tid).Pairwise
      fun a b => a.sequence_number < b.sequence_number) :
    (((appendAll db ops).messages.filter fun m => m.thread_id = tid).Pairwise
      fun a b => a.sequence_number < b.sequence_number) := by
  induction ops generalizing db with
  | nil => exact h
  | cons op ops ih => exact ih _ (filter_pairwise_lt db tid h op)

/-- On a thread whose messages are already in sequence order, the `ORDER BY` of
`getMessagesByThread` is the identity. -/
lemma getMessagesByThread_eq_filter (db : DB) (tid : ℕ)
    (h : (db.messages.filter fun m => m.thread_id = tid).Pairwise
      fun a b => a.sequence_number < b.sequence_number) :
    getMessagesByThread db tid = db.messages.filter fun m => m.thread_id = tid := by
  unfold getMessagesByThread
  apply List.Sorted.insertionSort_eq
  apply h.imp
  intro a b hab
  exact Nat.le_of_lt hab

/-! ## Stream normalizer (valuationAgent.ts, runQuery)

The agent collaborator is opaque: a turn is parametrised by the list of events it
yields (`chunks`) and by an optional exception raised while draining the stream
(`err`, carrying the computed error text).  Log-write outcomes are an oracle
`wok : ℕ → Bool` indexed by write attempt, modelling `createMessage` throws that
`persistMessage` catches and swallows. -/

/-- The `AgentMessage.type` union of `valuationAgent.ts` (the variants actually
constructed by `runQuery`). -/
inductive MsgType where
  | text
  | code
  | result
  | tool_call
  | executing
  | method_valuation_result
deriving DecidableEq, Repr

/-- A message returned to the caller. -/
structure AgentMessage where
  type : MsgType
  content : String
  metadata : Option MsgMeta
deriving DecidableEq, Repr

/-- `{messages, done}` as returned by a turn (`finalValuation` is always null). -/
structure AgentResponse where
  messages : List AgentMessage
  done : Bool
deriving DecidableEq, Repr

/-- An assistant-message content block. `command` is the `input.command` field,
present only for a shell invocation that carries one. -/
inductive ContentBlock where
  | text (s : String)
  | tool_use (name : String) (command : Option String)
deriving DecidableEq, Repr

/-- One event of the collaborator's stream.  For a `tool_result` event the
`content` field holds the already-coalesced text
(`result.content || JSON.stringify(chunk)`). -/
inductive Chunk where
  | assistant (blocks : List ContentBlock)
  | result (text : Option String)
  | tool_result (content : String) (is_error : Bool) (duration_ms : Option ℕ)
  | system
deriving DecidableEq, Repr

/-- `persistMessage`: write only when a thread id is present; a throwing
`createMessage` (oracle says `false`) is caught and swallowed, leaving the
database unchanged. -/
def persistMessage (wok : ℕ → Bool) (threadId : Option ℕ) (type : String)
    (content : String) (metadata : Option MsgMeta) (db : DB) (wi : ℕ) : DB × ℕ :=
  match threadId with
  | none => (db, wi)
  | some t =>
    (if wok wi then (createMessage db t type content metadata).1 else db, wi + 1)

/-- Accumulator while draining one turn's stream. -/
structure RQState where
  msgs : List AgentMessage
  done : Bool
  db : DB
  wi : ℕ

/-- Push a constructed message and immediately persist it under the given
database type tag. -/
def pushPersist (wok : ℕ → Bool) (tid : Option ℕ) (st : RQState)
    (m : AgentMessage) (dbType : String) : RQState :=
  let p := persistMessage wok tid dbType m.content m.metadata st.db st.wi
  { st with msgs := st.msgs ++ [m], db := p.1, wi := p.2 }

/-- The fixed save-prompt string of an extraction message. -/
def savePrompt (label : String) : String :=
  if label = "DCF" then "Would you like to save this DCF valuation to the database?"
  else "Would you like to save this Comparables valuation to the database?"

/-- A text content block: one `text` message, then one extraction message per
extractor hit. -/
def processTextBlock (wok : ℕ → Bool) (tid : Option ℕ) (s : String)
    (st : RQState) : RQState :=
  let st1 := pushPersist wok tid st ⟨.text, s, none⟩ "assistant_text"
  (extractValuations s).foldl
    (fun acc e =>
      pushPersist wok tid acc
        ⟨.method_valuation_result, savePrompt e.methodType,
          some (.methodValuation e.valuationValue e.methodType)⟩
        "method_valuation_result")
    st1

/-- Does `needle` occur at the front of the list? -/
def startsWith : List Char → List Char → Bool
  | [], _ => true
  | _ :: _, [] => false
  | a :: as, b :: bs => a = b && startsWith as bs

/-- `String.prototype.includes`: does `needle` occur anywhere in `hay`? -/
def occursIn (needle : List Char) : List Char → Bool
  | [] => needle.isEmpty
  | c :: t => startsWith needle (c :: t) || occursIn needle t

/-- A tool-invocation content block: a `tool_call` message, a `code` message when
the tool is `Bash` and a command is present (language `python` when the command
mentions it, else `bash`), then an `executing` message. -/
def processToolUseBlock (wok : ℕ → Bool) (tid : Option ℕ) (name : String)
    (command : Option String) (st : RQState) : RQState :=
  let st1 := pushPersist wok tid st
    ⟨.tool_call, "Using " ++ name ++ " tool", some (.toolName name)⟩ "tool_call"
  let st2 :=
    if name = "Bash" then
      match command with
      | some cmd =>
        pushPersist wok tid st1
          ⟨.code, cmd,
            some (.codeInfo "Bash"
              (if occursIn "python".toList cmd.toList then "python" else "bash"))⟩
          "code_block"
      | none => st1
    else st1
  pushPersist wok tid st2
    ⟨.executing, "Executing " ++ name ++ "...", some (.toolName name)⟩ "executing"

/-- Drain one stream event.  A final `result` event sets `done`; its text is
pushed (without persistence — there is no `persistMessage` call on that branch in
the source) only when nonempty and not already present verbatim among the
accumulated messages.  `system` events produce nothing. -/
def processChunk (wok : ℕ → Bool) (tid : Option ℕ) (st : RQState) :
    Chunk → RQState
  | .assistant blocks =>
    blocks.foldl
      (fun acc b =>
        match b with
        | .text s => processTextBlock wok tid s acc
        | .tool_use n c => processToolUseBlock wok tid n c acc)
      st
  | .result rtext =>
    let st1 :=
      match rtext with
      | some rt =>
        if rt ≠ "" ∧ ¬ st.msgs.any fun m => m.content = rt then
          { st with msgs := st.msgs ++ [(⟨.text, rt, none⟩ : AgentMessage)] }
        else st
      | none => st
    { st1 with done := true }
  | .tool_result content is_error duration_ms =>
    pushPersist wok tid st
      ⟨.result, content,
        some (.resultInfo (!is_error) (duration_ms.map fun d => (d : ℚ) / 1000))⟩
      "result"
  | .system => st

/-- The fallback text synthesized when a turn parsed no messages. -/
def fallbackText : String := "Response received but could not parse message content."

/-- The synthetic text appended by the catch handler. -/
def errorText (e : String) : String :=
  "Error: " ++ e ++
    "\n\nPlease check that Claude Code CLI is properly configured with your API key."

/-- `runQuery`: drain the stream; with no exception, synthesize the fallback
message (unpersisted) if nothing was parsed; on an exception, append the
synthetic error text message (unpersisted) to whatever was accumulated, leaving
`done` as it stood. -/
def runQuery (wok : ℕ → Bool) (threadId : Option ℕ) (chunks : List Chunk)
    (err : Option String) (db : DB) : AgentResponse × DB :=
  let st := chunks.foldl (processChunk wok threadId) ⟨[], false, db, 0⟩
  match err with
  | none =>
    if st.msgs.isEmpty then (⟨[⟨.text, fallbackText, none⟩], st.done⟩, st.db)
    else (⟨st.msgs, st.done⟩, st.db)
  | some e => (⟨st.msgs ++ [⟨.text, errorText e, none⟩], st.done⟩, st.db)

/-! ## Session manager (valuationAgent.ts, ValuationAgentService) -/

/-- The project snapshot passed by the caller (opaque to the core beyond being
stored on the conversation). -/
structure ProjectData where
  name : String
deriving DecidableEq, Repr

/-- One entry of the in-memory conversations map. -/
structure Conversation where
  history : List String
  projectData : ProjectData
  threadId : Option ℕ
deriving DecidableEq, Repr

/-- The service state: the per-project conversations map (insertion-ordered, as a
JS `Map`), the database, and a counter of collaborator invocations. -/
structure Svc where
  conversations : List (ℕ × Conversation)
  db : DB
  agentCalls : ℕ
deriving DecidableEq, Repr

/-- `this.conversations.get(projectId)`. -/
def lookupConv (svc : Svc) (pid : ℕ) : Option Conversation :=
  (svc.conversations.find? fun e => e.1 = pid).map fun e => e.2

/-- `this.conversations.set(projectId, conv)`. -/
def setConv (svc : Svc) (pid : ℕ) (c : Conversation) : Svc :=
  { svc with
    conversations :=
      if (svc.conversations.find? fun e => e.1 = pid).isSome then
        svc.conversations.map fun e => if e.1 = pid then (pid, c) else e
      else svc.conversations ++ [(pid, c)] }

/-- `clearConversation(projectId)`: drop in-memory state only. -/
def clearConversation (svc : Svc) (pid : ℕ) : Svc :=
  { svc with conversations := svc.conversations.filter fun e => e.1 ≠ pid }

/-- Rebuild the conversational history from a thread's messages: keep only
`user` / `assistant_text` rows, rendered as "User: …" / "Assistant: …" lines. -/
def rebuildHistory (msgs : List DBMessage) : List String :=
  msgs.filterMap fun m =>
    if m.type = "user" then some ("User: " ++ m.content)
    else if m.type = "assistant_text" then some ("Assistant: " ++ m.content)
    else none

/-- `restoreConversation`: find the active thread and rebuild its history
(the project snapshot argument is not consulted). -/
def restoreConversation (db : DB) (pid : ℕ) : Option (ℕ × List String) :=
  match getActiveThreadByProject db pid with
  | none => none
  | some th => some (th.id, rebuildHistory (getMessagesByThread db th.id))

/-- `startValuation`: an in-memory conversation short-circuits; else restoration
registers state and short-circuits; else create a thread, register empty state,
and run the opening turn (whose stream and write oracle parametrise the call). -/
def startValuation (svc : Svc) (pid : ℕ) (projectData : ProjectData)
    (chunks : List Chunk) (err : Option String) (wok : ℕ → Bool) :
    AgentResponse × Svc :=
  match lookupConv svc pid with
  | some _ => (⟨[], true⟩, svc)
  | none =>
    match restoreConversation svc.db pid with
    | some r => (⟨[], true⟩, setConv svc pid ⟨r.2, projectData, some r.1⟩)
    | none =>
      let c := createThread svc.db pid (some "New Valuation Session")
      let svc1 := setConv { svc with db := c.1 } pid ⟨[], projectData, some c.2.id⟩
      let q := runQuery wok (some c.2.id) chunks err c.1
      (q.1, { svc1 with db := q.2, agentCalls := svc1.agentCalls + 1 })

/-- `response.messages.map(m => m.content).join('\n')`. -/
def joinContents (msgs : List AgentMessage) : String :=
  String.intercalate "\n" (msgs.map fun m => m.content)

/-- `sendMessage`: resolve or restore state (throwing when no in-memory state
exists and no snapshot was provided; starting a fresh conversation — with its own
opening-turn stream — when restoration fails), persist the user's text, run the
turn, then append the user line and, when the response is nonempty, one
"Assistant:" line holding all response contents joined with newlines.  The prompt
string sent to the collaborator is absorbed by the stream parameters. -/
def sendMessage (svc : Svc) (pid : ℕ) (message : String)
    (projectData : Option ProjectData)
    (startChunks : List Chunk) (startErr : Option String) (wokStart : ℕ → Bool)
    (chunks : List Chunk) (err : Option String) (wokUser : Bool)
    (wok : ℕ → Bool) : Except String (AgentResponse × Svc) :=
  let resolved : Except String (Conversation × Svc) :=
    match lookupConv svc pid with
    | some conv => .ok (conv, svc)
    | none =>
      match projectData with
      | none =>
        .error ("No active conversation for project " ++ toString pid ++
          " and no project data provided to restore it")
      | some pd =>
        match restoreConversation svc.db pid with
        | some r =>
          .ok (⟨r.2, pd, some r.1⟩, setConv svc pid ⟨r.2, pd, some r.1⟩)
        | none =>
          let s := startValuation svc pid pd startChunks startErr wokStart
          match lookupConv s.2 pid with
          | none =>
            .error ("Failed to initialize conversation for project " ++ toString pid)
          | some conv => .ok (conv, s.2)
  match resolved with
  | .error e => .error e
  | .ok rc =>
    let conv := rc.1
    let svc1 := rc.2
    let db1 :=
      match conv.threadId with
      | some tid =>
        if wokUser then (createMessage svc1.db tid "user" message none).1 else svc1.db
      | none => svc1.db
    let q := runQuery wok conv.threadId chunks err db1
    let conv' : Conversation :=
      { conv with
        history := conv.history ++ ["User: " ++ message] ++
          (if q.1.messages.isEmpty then []
           else ["Assistant: " ++ joinContents q.1.messages]) }
    .ok (q.1, setConv { svc1 with db := q.2, agentCalls := svc1.agentCalls + 1 } pid conv')

/-! ## Auxiliary definitions for the statements -/

/-- Is this event the terminal `result` event? -/
def isResultChunk : Chunk → Bool
  | .result _ => true
  | _ => false

/-- Does the stream contain a terminal `result` event? -/
def hasResultChunk (chunks : List Chunk) : Bool := chunks.any isResultChunk

/-- The database type tag under which the stream normalizer persists each
returned-message variant. -/
def dbTypeOf : MsgType → String
  | .text => "assistant_text"
  | .code => "code_block"
  | .result => "result"
  | .tool_call => "tool_call"
  | .executing => "executing"
  | .method_valuation_result => "method_valuation_result"

/-- The persistence-relevant fields of a database message row. -/
def rowKey (m : DBMessage) : String × String × Option MsgMeta :=
  (m.type, m.content, m.metadata)

/-- The persistence-relevant fields of a returned message, under the type tag it
is persisted with. -/
def msgKey (m : AgentMessage) : String × String × Option MsgMeta :=
  (dbTypeOf m.type, m.content, m.metadata)

/-- Invariant of one turn: the database rows grown past `base` mirror, in order
and content, the messages accumulated in memory, all on thread `t`. -/
def PersistInv (t : ℕ) (base : List DBMessage) (st : RQState) : Prop :=
  ∃ A, st.db.messages = base ++ A
    ∧ A.map rowKey = st.msgs.map msgKey
    ∧ ∀ m ∈ A, m.thread_id = t

/-- Extract the resulting service state of a successful `sendMessage`. -/
def okState : Except String (AgentResponse × Svc) → Option Svc
  | .ok rs => some rs.2
  | .error _ => none

/-- Run a list of `sendMessage` turns, each consisting of the user's text and a
single assistant text block in the reply stream (all writes succeeding). -/
def playTurns (pid : ℕ) (svc : Svc) : List (String × String) → Svc
  | [] => svc
  | t :: ts =>
    match sendMessage svc pid t.1 none [] none (fun _ => true)
        [Chunk.assistant [ContentBlock.text t.2]] none true (fun _ => true) with
    | .ok rs => playTurns pid rs.2 ts
    | .error _ => svc

/-- A conversation-in-memory state ready for text turns on thread `tid`, whose
persisted history round-trips with the in-memory one. -/
def ReadyState (svc : Svc) (pid tid : ℕ) : Prop :=
  ∃ conv : Conversation,
    lookupConv svc pid = some conv
    ∧ conv.threadId = some tid
    ∧ ((svc.db.messages.filter fun m => m.thread_id = tid).Pairwise
        fun a b => a.sequence_number < b.sequence_number)
    ∧ rebuildHistory (getMessagesByThread svc.db tid) = conv.history

/-! ## Theorems for the claims -/

/-- C1: the composite MGX weighted valuation equals
`value(DCF)*weight(DCF) + value(Comps)*weight(Comps)` with a missing or unset value
treated as 0; it is defined (non-null) iff at least one of the two method values is
strictly positive; and DCF=2,500,000 at weight 0.6 with Comps=3,000,000 at weight
0.4 gives 2,700,000. -/
theorem mgx_composite_valuation :
    (∀ methods dcfW compsW, computeMgx methods dcfW compsW ≠ none ↔
      (0 < methodValue methods "DCF" ∨ 0 < methodValue methods "Comps"))
    ∧ (∀ methods dcfW compsW v, computeMgx methods dcfW compsW = some v →
        v = methodValue methods "DCF" * dcfW + methodValue methods "Comps" * compsW)
    ∧ computeMgx [⟨"DCF", 6/10, some 2500000⟩, ⟨"Comps", 4/10, some 3000000⟩]
        (6/10) (4/10) = some 2700000 := by
  refine ⟨?_, ?_, ?_⟩
  · intro ms dw cw
    by_cases h : 0 < methodValue ms "DCF" ∨ 0 < methodValue ms "Comps" <;>
      simp [computeMgx, h]
  · intro ms dw cw v h
    by_cases hc : 0 < methodValue ms "DCF" ∨ 0 < methodValue ms "Comps"
    · simp only [computeMgx, if_pos hc, Option.some.injEq] at h
      exact h.symm
    · simp [computeMgx, hc] at h
  · have h1 : methodValue
        [⟨"DCF", 6/10, some 2500000⟩, ⟨"Comps", 4/10, some 3000000⟩] "DCF"
        = 2500000 := rfl
    have h2 : methodValue
        [⟨"DCF", 6/10, some 2500000⟩, ⟨"Comps", 4/10, some 3000000⟩] "Comps"
        = 3000000 := rfl
    unfold computeMgx
    rw [h1, h2]
    norm_num

/-- Witness for C1 at the concrete inputs of the claim. -/
theorem mgx_composite_valuation_witness :
    computeMgx [⟨"DCF", 6/10, some 2500000⟩, ⟨"Comps", 4/10, some 3000000⟩]
        (6/10) (4/10) ≠ none
    ∧ (2700000 : ℚ) =
        methodValue [⟨"DCF", 6/10, some 2500000⟩, ⟨"Comps", 4/10, some 3000000⟩] "DCF"
          * (6/10)
        + methodValue [⟨"DCF", 6/10, some 2500000⟩, ⟨"Comps", 4/10, some 3000000⟩] "Comps"
          * (4/10) :=
  ⟨(mgx_composite_valuation.1 _ _ _).mpr (Or.inl (by norm_num [methodValue, List.find?])),
   mgx_composite_valuation.2.1 _ (6/10) (4/10) 2700000 mgx_composite_valuation.2.2⟩

/-- C10 counterexample: from stored weights 0.5/0.5, a delta of −0.375 leaves the
clamped weight exactly halfway between hundredths; `toFixed(2)` rounds both halves
up, so the stored weights become 0.13 and 0.88, summing to 1.01 ≠ 1. -/
theorem weight_balance_counterexample :
    handleDcfWeightChange (1/2) (1/2) (-(3/8)) = (13/100, 88/100)
    ∧ (13/100 : ℚ) + 88/100 ≠ 1 := by
  constructor
  · have e0 : jsOrDefault (1/2) (6/10) = 1/2 := by norm_num [jsOrDefault]
    have e1 : clamp01 (1/2 + -(3/8)) = 1/8 := by
      unfold clamp01
      norm_num [min_def, max_def]
    have e2 : toFixed2 (1/8) = 13/100 := by
      unfold toFixed2
      rw [show (1/8 : ℚ) * 100 + 1/2 = ((13 : ℤ) : ℚ) by norm_num,
        Int.floor_intCast]
      norm_num
    have e3 : toFixed2 (1 - 1/8) = 88/100 := by
      unfold toFixed2
      rw [show ((1 : ℚ) - 1/8) * 100 + 1/2 = ((88 : ℤ) : ℚ) by norm_num,
        Int.floor_intCast]
      norm_num
    simp only [handleDcfWeightChange]
    rw [e0, e1, e2, e3]
  · norm_num

lemma balanced_pair (x : ℚ) (h0 : 0 ≤ x) (h1 : x ≤ 1) :
    0 ≤ toFixed2 x ∧ toFixed2 x ≤ 1
    ∧ 0 ≤ toFixed2 (1 - x) ∧ toFixed2 (1 - x) ≤ 1
    ∧ (toFixed2 x + toFixed2 (1 - x) = 1
       ∨ toFixed2 x + toFixed2 (1 - x) = 101/100) :=
  ⟨toFixed2_nonneg h0, toFixed2_le_one h1,
   toFixed2_nonneg (by linarith), toFixed2_le_one (by linarith),
   toFixed2_complement_sum x⟩

/-- C10 amended: after either weight handler the unrounded adjusted weight is
clamped to [0,1] and the other is its exact complement; each stored
(two-decimal-rounded) weight lies in [0,1], and the stored weights sum to 1 except
when the clamped weight falls exactly halfway between hundredths, where
round-half-up makes them sum to 1.01. -/
theorem weight_balance_invariant (dcfW compsW delta : ℚ) :
    (0 ≤ (handleDcfWeightChange dcfW compsW delta).1
     ∧ (handleDcfWeightChange dcfW compsW delta).1 ≤ 1
     ∧ 0 ≤ (handleDcfWeightChange dcfW compsW delta).2
     ∧ (handleDcfWeightChange dcfW compsW delta).2 ≤ 1
     ∧ ((handleDcfWeightChange dcfW compsW delta).1
          + (handleDcfWeightChange dcfW compsW delta).2 = 1
        ∨ (handleDcfWeightChange dcfW compsW delta).1
          + (handleDcfWeightChange dcfW compsW delta).2 = 101/100))
    ∧ (0 ≤ (handleCompsWeightChange dcfW compsW delta).1
     ∧ (handleCompsWeightChange dcfW compsW delta).1 ≤ 1
     ∧ 0 ≤ (handleCompsWeightChange dcfW compsW delta).2
     ∧ (handleCompsWeightChange dcfW compsW delta).2 ≤ 1
     ∧ ((handleCompsWeightChange dcfW compsW delta).1
          + (handleCompsWeightChange dcfW compsW delta).2 = 1
        ∨ (handleCompsWeightChange dcfW compsW delta).1
          + (handleCompsWeightChange dcfW compsW delta).2 = 101/100)) := by
  constructor
  · simp only [handleDcfWeightChange]
    have h := balanced_pair (clamp01 (jsOrDefault dcfW (6/10) + delta))
      (clamp01_nonneg _) (clamp01_le_one _)
    exact ⟨h.1, h.2.1, h.2.2.1, h.2.2.2.1, h.2.2.2.2⟩
  · simp only [handleCompsWeightChange]
    have h := balanced_pair (clamp01 (jsOrDefault compsW (4/10) + delta))
      (clamp01_nonneg _) (clamp01_le_one _)
    refine ⟨h.2.2.1, h.2.2.2.1, h.1, h.2.1, ?_⟩
    rcases h.2.2.2.2 with hs | hs
    · left
      linarith
    · right
      linarith

/-- C2: extracting from "DCF_VALUE: $2,500,000" yields exactly one extraction,
labelled DCF with value 2500000 (commas stripped); at the stream-normalizer level
this emits exactly one `method_valuation_result` message; and a text containing
both a DCF and a COMPS marker yields two independent extractions, one per label. -/
theorem extractor_single_and_double_label :
    extractValuations "DCF_VALUE: $2,500,000" = [⟨"DCF", some 2500000⟩]
    ∧ (runQuery (fun _ => true) (some 1)
        [Chunk.assistant [ContentBlock.text "DCF_VALUE: $2,500,000"]] none
        DB.empty).1.messages
      = [⟨MsgType.text, "DCF_VALUE: $2,500,000", none⟩,
         ⟨MsgType.method_valuation_result,
          "Would you like to save this DCF valuation to the database?",
          some (MsgMeta.methodValuation (some 2500000) "DCF")⟩]
    ∧ extractValuations "DCF_VALUE: $2,500,000 and COMPS_VALUE: $3,000,000"
      = [⟨"DCF", some 2500000⟩, ⟨"Comps", some 3000000⟩]
    ∧ (runQuery (fun _ => true) (some 1)
        [Chunk.assistant
          [ContentBlock.text "DCF_VALUE: $2,500,000 and COMPS_VALUE: $3,000,000"]]
        none DB.empty).1.messages
      = [⟨MsgType.text, "DCF_VALUE: $2,500,000 and COMPS_VALUE: $3,000,000", none⟩,
         ⟨MsgType.method_valuation_result,
          "Would you like to save this DCF valuation to the database?",
          some (MsgMeta.methodValuation (some 2500000) "DCF")⟩,
         ⟨MsgType.method_valuation_result,
          "Would you like to save this Comparables valuation to the database?",
          some (MsgMeta.methodValuation (some 3000000) "Comps")⟩] := by
  refine ⟨by decide, by decide, by decide, by decide⟩

/-- C8 counterexample: the same label matching twice in one text yields a single
extraction carrying the first match's value, not one extraction per match —
`String.prototype.match` without the global flag returns only the first match. -/
theorem same_label_twice_counterexample :
    extractValuations "DCF_VALUE: $100 and then DCF_VALUE: $200"
      = [⟨"DCF", some 100⟩] := by decide

/-- C8 amended: the extractor emits at most one extraction per recognized label
per text — the first match of each label — hence at most two extractions in all;
a repeated label is collapsed to its first occurrence. -/
theorem extractor_first_match_per_label (s : String) :
    ((extractValuations s).filter fun e => e.methodType = "DCF").length ≤ 1
    ∧ ((extractValuations s).filter fun e => e.methodType = "Comps").length ≤ 1
    ∧ (extractValuations s).length ≤ 2 := by
  unfold extractValuations
  simp only [String.toList]
  cases h1 : findFirstMatch matchDcfAt s.data <;>
    cases h2 : findFirstMatch matchCompsAt s.data <;> simp [h1, h2]

/-- C3: in every database reachable by `createMessage` appends (across arbitrary
threads), the messages returned by `getMessagesByThread` have strictly increasing
— hence duplicate-free — sequence numbers, because `createMessage` assigns
`max(existing)+1` within the thread (1 for an empty thread). -/
theorem sequence_numbers_strictly_increasing
    (ops : List (ℕ × String × String × Option MsgMeta)) (tid : ℕ) :
    (((getMessagesByThread (appendAll DB.empty ops) tid).map
        fun m => m.sequence_number).Pairwise (· < ·))
    ∧ (∀ db threadId type content metadata,
        (createMessage db threadId type content metadata).2.sequence_number
          = nextSeq db threadId)
    ∧ nextSeq DB.empty tid = 1 := by
  refine ⟨?_, fun _ _ _ _ _ => rfl, rfl⟩
  have hpw := appendAll_pairwise ops DB.empty tid (by simp [DB.empty])
  rw [getMessagesByThread_eq_filter _ _ hpw]
  exact List.pairwise_map.mpr hpw

lemma find?_overwrite (l : List (ℕ × Conversation)) (pid : ℕ) (c : Conversation)
    (h : (l.find? fun e => e.1 = pid).isSome) :
    ((l.map fun e => if e.1 = pid then (pid, c) else e).find? fun e => e.1 = pid)
      = some (pid, c) := by
  induction l with
  | nil => simp at h
  | cons a l ih =>
    by_cases ha : a.1 = pid
    · simp [List.find?_cons, ha]
    · rw [List.find?_cons_of_neg _ (by simp [ha])] at h
      simp only [List.map_cons, if_neg ha]
      rw [List.find?_cons_of_neg _ (by simp [ha])]
      exact ih h

lemma find?_append_new (l : List (ℕ × Conversation)) (pid : ℕ) (c : Conversation)
    (h : (l.find? fun e => e.1 = pid) = none) :
    ((l ++ [(pid, c)]).find? fun e => e.1 = pid) = some (pid, c) := by
  induction l with
  | nil => simp
  | cons a l ih =>
    by_cases ha : a.1 = pid
    · rw [List.find?_cons_of_pos _ (by simp [ha])] at h
      exact absurd h (by simp)
    · rw [List.find?_cons_of_neg _ (by simp [ha])] at h
      rw [List.cons_append, List.find?_cons_of_neg _ (by simp [ha])]
      exact ih h

lemma lookupConv_setConv (svc : Svc) (pid : ℕ) (c : Conversation) :
    lookupConv (setConv svc pid c) pid = some c := by
  unfold lookupConv setConv
  by_cases h : (svc.conversations.find? fun e => e.1 = pid).isSome
  · simp only [if_pos h]
    rw [find?_overwrite _ _ _ h]
    rfl
  · simp only [if_neg h]
    rw [find?_append_new _ _ _ (Option.not_isSome_iff_eq_none.mp h)]
    rfl

lemma lookupConv_update (svc : Svc) (db' : DB) (n : ℕ) (pid : ℕ) :
    lookupConv { svc with db := db', agentCalls := n } pid = lookupConv svc pid := rfl

lemma lookupConv_eq_of_convs (s1 s2 : Svc) (pid : ℕ)
    (h : s1.conversations = s2.conversations) :
    lookupConv s1 pid = lookupConv s2 pid := by
  unfold lookupConv
  rw [h]

lemma setConv_agentCalls (svc : Svc) (pid : ℕ) (c : Conversation) :
    (setConv svc pid c).agentCalls = svc.agentCalls := rfl

/-- `startValuation` short-circuits when an in-memory conversation exists. -/
lemma startValuation_of_mem (svc : Svc) (pid : ℕ) (pd : ProjectData)
    (chunks : List Chunk) (err : Option String) (wok : ℕ → Bool) (c : Conversation)
    (h : lookupConv svc pid = some c) :
    startValuation svc pid pd chunks err wok = (⟨[], true⟩, svc) := by
  unfold startValuation
  rw [h]

/-- After any `startValuation` call the in-memory map holds the project. -/
lemma lookupConv_after_start (svc : Svc) (pid : ℕ) (pd : ProjectData)
    (chunks : List Chunk) (err : Option String) (wok : ℕ → Bool) :
    ∃ c, lookupConv (startValuation svc pid pd chunks err wok).2 pid = some c := by
  unfold startValuation
  cases h1 : lookupConv svc pid with
  | some c => exact ⟨c, h1⟩
  | none =>
    cases h2 : restoreConversation svc.db pid with
    | some r => exact ⟨_, lookupConv_setConv _ _ _⟩
    | none =>
      exact ⟨_, Eq.trans
        (lookupConv_eq_of_convs _
          (setConv { svc with db := (createThread svc.db pid (some "New Valuation Session")).1 }
            pid ⟨[], pd, some (createThread svc.db pid (some "New Valuation Session")).2.id⟩)
          pid rfl)
        (lookupConv_setConv _ _ _)⟩

/-- C4: `startConversation` is idempotent while in-memory state exists: a second
call for the same project (no intervening `clearConversation`) returns an empty
batch with `done=true` and leaves the whole service state — conversations map,
database (hence threads), and collaborator-invocation count — unchanged; and the
first call invokes the collaborator at most once. -/
theorem startConversation_idempotent (svc : Svc) (pid : ℕ) (pd1 pd2 : ProjectData)
    (ch1 ch2 : List Chunk) (e1 e2 : Option String) (w1 w2 : ℕ → Bool) :
    startValuation (startValuation svc pid pd1 ch1 e1 w1).2 pid pd2 ch2 e2 w2
      = (⟨[], true⟩, (startValuation svc pid pd1 ch1 e1 w1).2)
    ∧ (startValuation svc pid pd1 ch1 e1 w1).2.agentCalls ≤ svc.agentCalls + 1 := by
  constructor
  · obtain ⟨c, hc⟩ := lookupConv_after_start svc pid pd1 ch1 e1 w1
    exact startValuation_of_mem _ _ _ _ _ _ c hc
  · unfold startValuation
    cases h1 : lookupConv svc pid with
    | some c => exact Nat.le_succ _
    | none =>
      cases h2 : restoreConversation svc.db pid with
      | some r => exact Nat.le_succ _
      | none => simp [setConv_agentCalls]

lemma pushPersist_msgs (w : ℕ → Bool) (t : Option ℕ) (st : RQState)
    (m : AgentMessage) (ty : String) :
    (pushPersist w t st m ty).msgs = st.msgs ++ [m] := rfl

lemma pushPersist_done (w : ℕ → Bool) (t : Option ℕ) (st : RQState)
    (m : AgentMessage) (ty : String) :
    (pushPersist w t st m ty).done = st.done := rfl

lemma foldl_extract_msgs (w : ℕ → Bool) (t : Option ℕ) (es : List Extraction)
    (st : RQState) :
    (es.foldl
      (fun acc e =>
        pushPersist w t acc
          ⟨.method_valuation_result, savePrompt e.methodType,
            some (.methodValuation e.valuationValue e.methodType)⟩
          "method_valuation_result")
      st).msgs
    = st.msgs ++ es.map fun e =>
        (⟨.method_valuation_result, savePrompt e.methodType,
          some (.methodValuation e.valuationValue e.methodType)⟩ : AgentMessage) := by
  induction es generalizing st with
  | nil => simp
  | cons e es ih =>
    rw [List.foldl_cons, ih, pushPersist_msgs]
    simp

lemma foldl_extract_done (w : ℕ → Bool) (t : Option ℕ) (es : List Extraction)
    (st : RQState) :
    (es.foldl
      (fun acc e =>
        pushPersist w t acc
          ⟨.method_valuation_result, savePrompt e.methodType,
            some (.methodValuation e.valuationValue e.methodType)⟩
          "method_valuation_result")
      st).done = st.done := by
  induction es generalizing st with
  | nil => rfl
  | cons e es ih => rw [List.foldl_cons, ih, pushPersist_done]

/-- The returned messages of a text block depend only on the accumulated
messages and the text. -/
lemma processTextBlock_msgs (w : ℕ → Bool) (t : Option ℕ) (s : String)
    (st : RQState) :
    (processTextBlock w t s st).msgs
      = st.msgs ++ [⟨.text, s, none⟩] ++ ((extractValuations s).map fun e =>
          (⟨.method_valuation_result, savePrompt e.methodType,
            some (.methodValuation e.valuationValue e.methodType)⟩ : AgentMessage)) := by
  unfold processTextBlock
  rw [foldl_extract_msgs, pushPersist_msgs]

lemma processTextBlock_done (w : ℕ → Bool) (t : Option ℕ) (s : String)
    (st : RQState) :
    (processTextBlock w t s st).done = st.done := by
  unfold processTextBlock
  rw [foldl_extract_done, pushPersist_done]

/-- The messages produced by a tool-use block, as appended to the accumulator. -/
def toolUseMsgs (name : String) (command : Option String) : List AgentMessage :=
  [⟨.tool_call, "Using " ++ name ++ " tool", some (.toolName name)⟩]
  ++ (if name = "Bash" then
      match command with
      | some cmd =>
        [⟨.code, cmd,
          some (.codeInfo "Bash"
            (if occursIn "python".toList cmd.toList then "python" else "bash"))⟩]
      | none => []
    else [])
  ++ [⟨.executing, "Executing " ++ name ++ "...", some (.toolName name)⟩]

lemma processToolUseBlock_msgs (w : ℕ → Bool) (t : Option ℕ) (name : String)
    (command : Option String) (st : RQState) :
    (processToolUseBlock w t name command st).msgs
      = st.msgs ++ toolUseMsgs name command := by
  unfold processToolUseBlock toolUseMsgs
  by_cases h : name = "Bash" <;> cases command <;>
    simp [h, pushPersist_msgs]

lemma processToolUseBlock_done (w : ℕ → Bool) (t : Option ℕ) (name : String)
    (command : Option String) (st : RQState) :
    (processToolUseBlock w t name command st).done = st.done := by
  unfold processToolUseBlock
  by_cases h : name = "Bash" <;> cases command <;>
    simp [h, pushPersist_done]

lemma foldl_blocks_done (w : ℕ → Bool) (t : Option ℕ) (blocks : List ContentBlock)
    (st : RQState) :
    (blocks.foldl
      (fun acc b =>
        match b with
        | .text s => processTextBlock w t s acc
        | .tool_use n c => processToolUseBlock w t n c acc)
      st).done = st.done := by
  induction blocks generalizing st with
  | nil => rfl
  | cons b bs ih =>
    rw [List.foldl_cons, ih]
    cases b with
    | text s => exact processTextBlock_done w t s st
    | tool_use n c => exact processToolUseBlock_done w t n c st

lemma processChunk_done (w : ℕ → Bool) (t : Option ℕ) (st : RQState) (c : Chunk) :
    (processChunk w t st c).done = (st.done || isResultChunk c) := by
  cases c with
  | assistant blocks =>
    show (blocks.foldl _ st).done = _
    rw [foldl_blocks_done]
    simp [isResultChunk]
  | result rtext =>
    cases rtext with
    | none => simp [processChunk, isResultChunk]
    | some rt =>
      by_cases h : rt ≠ "" ∧ ¬ st.msgs.any fun m => m.content = rt <;>
        simp [processChunk, isResultChunk, h]
  | tool_result content is_error duration_ms =>
    simp [processChunk, pushPersist_done, isResultChunk]
  | system => simp [processChunk, isResultChunk]

lemma foldl_chunks_done (w : ℕ → Bool) (t : Option ℕ) (chunks : List Chunk)
    (st : RQState) :
    (chunks.foldl (processChunk w t) st).done = (st.done || hasResultChunk chunks) := by
  induction chunks generalizing st with
  | nil => simp [hasResultChunk]
  | cons c cs ih =>
    rw [List.foldl_cons, ih, processChunk_done]
    simp [hasResultChunk, Bool.or_assoc]

/-- C6 counterexample: a stream that yields a final `result` event and then raises
while draining ends the turn with `done=true`, not `done=false`, and the appended
synthetic failure message is `text`-typed (the `AgentMessage` type union has no
`error` variant). -/
theorem stream_error_counterexample :
    (runQuery (fun _ => true) (some 1) [Chunk.result (some "ok")] (some "boom")
      DB.empty).1.done = true
    ∧ (runQuery (fun _ => true) (some 1) [Chunk.result (some "ok")] (some "boom")
        DB.empty).1.messages.getLast?
      = some ⟨MsgType.text, errorText "boom", none⟩ := by
  constructor
  · decide
  · decide

/-- C6 amended: an exception raised while draining the stream is not propagated:
the turn still returns a batch whose last element is a synthetic `text`-typed
message carrying the failure description, and `done` keeps the value accumulated
before the exception — in particular `done=false` whenever no final `result` event
was drained first. -/
theorem stream_error_recovery (wok : ℕ → Bool) (tid : Option ℕ)
    (chunks : List Chunk) (e : String) (db : DB) :
    (runQuery wok tid chunks (some e) db).1.messages.getLast?
      = some ⟨MsgType.text, errorText e, none⟩
    ∧ (runQuery wok tid chunks (some e) db).1.done = hasResultChunk chunks
    ∧ (hasResultChunk chunks = false →
        (runQuery wok tid chunks (some e) db).1.done = false) := by
  refine ⟨?_, ?_, ?_⟩
  · show ((chunks.foldl (processChunk wok tid) ⟨[], false, db, 0⟩).msgs
      ++ [(⟨MsgType.text, errorText e, none⟩ : AgentMessage)]).getLast? = _
    simp
  · show (chunks.foldl (processChunk wok tid) ⟨[], false, db, 0⟩).done = _
    rw [foldl_chunks_done]
    simp
  · intro h
    show (chunks.foldl (processChunk wok tid) ⟨[], false, db, 0⟩).done = false
    rw [foldl_chunks_done, h]
    simp

/-- Witness for C6: the amended theorem applied to an empty drained stream. -/
theorem stream_error_recovery_witness :
    (runQuery (fun _ => true) none [] (some "boom") DB.empty).1.done = false :=
  (stream_error_recovery (fun _ => true) none [] "boom" DB.empty).2.2 rfl

lemma foldl_blocks_msgs_resp (w1 w2 : ℕ → Bool) (t1 t2 : Option ℕ)
    (blocks : List ContentBlock) :
    ∀ st1 st2 : RQState, st1.msgs = st2.msgs →
    (blocks.foldl
      (fun acc b =>
        match b with
        | .text s => processTextBlock w1 t1 s acc
        | .tool_use n c => processToolUseBlock w1 t1 n c acc)
      st1).msgs
    = (blocks.foldl
      (fun acc b =>
        match b with
        | .text s => processTextBlock w2 t2 s acc
        | .tool_use n c => processToolUseBlock w2 t2 n c acc)
      st2).msgs := by
  induction blocks with
  | nil => intro st1 st2 hm; exact hm
  | cons b bs ih =>
    intro st1 st2 hm
    rw [List.foldl_cons, List.foldl_cons]
    apply ih
    cases b with
    | text s => rw [processTextBlock_msgs, processTextBlock_msgs, hm]
    | tool_use n c => rw [processToolUseBlock_msgs, processToolUseBlock_msgs, hm]

lemma processChunk_msgs_resp (w1 w2 : ℕ → Bool) (t1 t2 : Option ℕ) (c : Chunk)
    (st1 st2 : RQState) (hm : st1.msgs = st2.msgs) :
    (processChunk w1 t1 st1 c).msgs = (processChunk w2 t2 st2 c).msgs := by
  cases c with
  | assistant blocks => exact foldl_blocks_msgs_resp w1 w2 t1 t2 blocks st1 st2 hm
  | result rtext =>
    cases rtext with
    | none => simpa [processChunk] using hm
    | some rt =>
      simp only [processChunk, hm]
      split <;> simp [hm]
  | tool_result content is_error duration_ms =>
    rw [show (processChunk w1 t1 st1 (.tool_result content is_error duration_ms)).msgs
        = st1.msgs ++ _ from pushPersist_msgs _ _ _ _ _,
      show (processChunk w2 t2 st2 (.tool_result content is_error duration_ms)).msgs
        = st2.msgs ++ _ from pushPersist_msgs _ _ _ _ _, hm]
  | system => simpa [processChunk] using hm

lemma foldl_chunks_msgs_resp (w1 w2 : ℕ → Bool) (t1 t2 : Option ℕ)
    (chunks : List Chunk) :
    ∀ st1 st2 : RQState, st1.msgs = st2.msgs →
    (chunks.foldl (processChunk w1 t1) st1).msgs
      = (chunks.foldl (processChunk w2 t2) st2).msgs := by
  induction chunks with
  | nil => intro st1 st2 hm; exact hm
  | cons c cs ih =>
    intro st1 st2 hm
    rw [List.foldl_cons, List.foldl_cons]
    exact ih _ _ (processChunk_msgs_resp w1 w2 t1 t2 c st1 st2 hm)

/-- The returned batch of a turn is independent of the write oracle, the thread
id, and the database: persistence failures are swallowed. -/
lemma runQuery_resp_eq (chunks : List Chunk) (err : Option String)
    (w1 w2 : ℕ → Bool) (t1 t2 : Option ℕ) (db1 db2 : DB) :
    (runQuery w1 t1 chunks err db1).1 = (runQuery w2 t2 chunks err db2).1 := by
  have hm := foldl_chunks_msgs_resp w1 w2 t1 t2 chunks
    ⟨[], false, db1, 0⟩ ⟨[], false, db2, 0⟩ rfl
  have hd1 := foldl_chunks_done w1 t1 chunks ⟨[], false, db1, 0⟩
  have hd2 := foldl_chunks_done w2 t2 chunks ⟨[], false, db2, 0⟩
  unfold runQuery
  cases err with
  | none =>
    simp only [hm, hd1, hd2]
    split <;> rfl
  | some e => simp only [hm, hd1, hd2]

lemma persistInv_push (t : ℕ) (base : List DBMessage) (st : RQState)
    (m : AgentMessage) (h : PersistInv t base st) :
    PersistInv t base (pushPersist (fun _ => true) (some t) st m (dbTypeOf m.type)) := by
  obtain ⟨A, h1, h2, h3⟩ := h
  refine ⟨A ++ [⟨t, dbTypeOf m.type, m.content, m.metadata, nextSeq st.db t⟩], ?_, ?_, ?_⟩
  · show (updateThreadLastMessage
        { st.db with messages := st.db.messages ++ [_] } t).messages = _
    simp [updateThreadLastMessage, h1]
  · rw [pushPersist_msgs]
    simp [h2, msgKey, rowKey]
  · intro x hx
    rcases List.mem_append.mp hx with hx | hx
    · exact h3 x hx
    · rw [List.mem_singleton] at hx
      subst hx
      rfl

lemma persistInv_extract_fold (t : ℕ) (base : List DBMessage)
    (es : List Extraction) :
    ∀ st : RQState, PersistInv t base st →
    PersistInv t base
      (es.foldl
        (fun acc e =>
          pushPersist (fun _ => true) (some t) acc
            ⟨.method_valuation_result, savePrompt e.methodType,
              some (.methodValuation e.valuationValue e.methodType)⟩
            "method_valuation_result")
        st) := by
  induction es with
  | nil => intro st h; exact h
  | cons e es ih =>
    intro st h
    rw [List.foldl_cons]
    exact ih _ (persistInv_push t base st _ h)

lemma persistInv_textBlock (t : ℕ) (base : List DBMessage) (s : String)
    (st : RQState) (h : PersistInv t base st) :
    PersistInv t base (processTextBlock (fun _ => true) (some t) s st) := by
  unfold processTextBlock
  exact persistInv_extract_fold t base _ _ (persistInv_push t base st _ h)

lemma persistInv_toolUseBlock (t : ℕ) (base : List DBMessage) (name : String)
    (command : Option String) (st : RQState) (h : PersistInv t base st) :
    PersistInv t base (processToolUseBlock (fun _ => true) (some t) name command st) := by
  unfold processToolUseBlock
  by_cases hb : name = "Bash"
  · cases command with
    | none =>
      simp only [hb, if_true]
      exact persistInv_push t base _ _ (persistInv_push t base st _ h)
    | some cmd =>
      simp only [hb, if_true]
      exact persistInv_push t base _ _
        (persistInv_push t base _ _ (persistInv_push t base st _ h))
  · simp only [hb, if_false]
    exact persistInv_push t base _ _ (persistInv_push t base st _ h)

lemma persistInv_blocks (t : ℕ) (base : List DBMessage)
    (blocks : List ContentBlock) :
    ∀ st : RQState, PersistInv t base st →
    PersistInv t base
      (blocks.foldl
        (fun acc b =>
          match b with
          | .text s => processTextBlock (fun _ => true) (some t) s acc
          | .tool_use n c => processToolUseBlock (fun _ => true) (some t) n c acc)
        st) := by
  induction blocks with
  | nil => intro st h; exact h
  | cons b bs ih =>
    intro st h
    rw [List.foldl_cons]
    apply ih
    cases b with
    | text s => exact persistInv_textBlock t base s st h
    | tool_use n c => exact persistInv_toolUseBlock t base n c st h

lemma persistInv_chunk (t : ℕ) (base : List DBMessage) (c : Chunk)
    (hnr : isResultChunk c = false) (st : RQState) (h : PersistInv t base st) :
    PersistInv t base (processChunk (fun _ => true) (some t) st c) := by
  cases c with
  | assistant blocks => exact persistInv_blocks t base blocks st h
  | result rtext => simp [isResultChunk] at hnr
  | tool_result content is_error duration_ms => exact persistInv_push t base st _ h
  | system => exact h

lemma persistInv_chunks (t : ℕ) (base : List DBMessage) (chunks : List Chunk) :
    hasResultChunk chunks = false →
    ∀ st : RQState, PersistInv t base st →
    PersistInv t base (chunks.foldl (processChunk (fun _ => true) (some t)) st) := by
  induction chunks with
  | nil => intro _ st h; exact h
  | cons c cs ih =>
    intro hnr st h
    have hc : isResultChunk c = false ∧ hasResultChunk cs = false := by
      simpa [hasResultChunk, Bool.or_eq_false_iff] using hnr
    rw [List.foldl_cons]
    exact ih hc.2 _ (persistInv_chunk t base c hc.1 st h)

/-- C7 counterexample: a turn consisting of a final `result` event returns its text
in the batch, but writes nothing to the message log — the de-duplicated
final-result text is constructed without a `persistMessage` call. -/
theorem persist_counterexample :
    (runQuery (fun _ => true) (some 1) [Chunk.result (some "hello")] none
      DB.empty).1.messages
      = [⟨MsgType.text, "hello", none⟩]
    ∧ (runQuery (fun _ => true) (some 1) [Chunk.result (some "hello")] none
        DB.empty).2 = DB.empty := by
  constructor
  · decide
  · decide

/-- C7 amended: for a turn on a present thread whose stream contains no final
`result` event, does not raise, and parses at least one message, every constructed
message variant is persisted immediately in stream order — the newly appended log
rows mirror the returned batch one-for-one (type tag, content, metadata) on that
thread; the synthesized fallback text (and the final-result text, per the
counterexample) is returned without being persisted; and the returned batch never
depends on the write oracle, thread id, or database, so log-write failures are
swallowed without aborting the turn. -/
theorem persist_immediate_order (t : ℕ) (chunks : List Chunk) (db : DB)
    (hnr : hasResultChunk chunks = false)
    (hne : (runQuery (fun _ => true) (some t) chunks none db).1.messages
      ≠ [⟨MsgType.text, fallbackText, none⟩]) :
    ((runQuery (fun _ => true) (some t) chunks none db).2.messages
      = db.messages
        ++ ((runQuery (fun _ => true) (some t) chunks none db).2.messages.drop
            db.messages.length))
    ∧ (((runQuery (fun _ => true) (some t) chunks none db).2.messages.drop
          db.messages.length).map rowKey
        = ((runQuery (fun _ => true) (some t) chunks none db).1.messages.map msgKey))
    ∧ (∀ m ∈ (runQuery (fun _ => true) (some t) chunks none db).2.messages.drop
          db.messages.length, m.thread_id = t)
    ∧ ∀ (w1 w2 : ℕ → Bool) (t1 t2 : Option ℕ) (db1 db2 : DB) (err : Option String),
        (runQuery w1 t1 chunks err db1).1 = (runQuery w2 t2 chunks err db2).1 := by
  have hinv := persistInv_chunks t db.messages chunks hnr ⟨[], false, db, 0⟩
    ⟨[], by simp, by simp, by simp⟩
  obtain ⟨A, h1, h2, h3⟩ := hinv
  by_cases hempty : (chunks.foldl (processChunk (fun _ => true) (some t))
      ⟨[], false, db, 0⟩).msgs = []
  · exfalso
    apply hne
    have hb : (chunks.foldl (processChunk (fun _ => true) (some t))
        ⟨[], false, db, 0⟩).msgs.isEmpty = true := by
      simp [hempty]
    have hrq : runQuery (fun _ => true) (some t) chunks none db
        = (⟨[⟨MsgType.text, fallbackText, none⟩],
            (chunks.foldl (processChunk (fun _ => true) (some t))
              ⟨[], false, db, 0⟩).done⟩,
           (chunks.foldl (processChunk (fun _ => true) (some t))
              ⟨[], false, db, 0⟩).db) := if_pos hb
    rw [hrq]
  · have hb : ¬ ((chunks.foldl (processChunk (fun _ => true) (some t))
        ⟨[], false, db, 0⟩).msgs.isEmpty = true) := by
      simp [List.isEmpty_iff, hempty]
    have hrq : runQuery (fun _ => true) (some t) chunks none db
        = (⟨(chunks.foldl (processChunk (fun _ => true) (some t))
            ⟨[], false, db, 0⟩).msgs,
           (chunks.foldl (processChunk (fun _ => true) (some t))
            ⟨[], false, db, 0⟩).done⟩,
          (chunks.foldl (processChunk (fun _ => true) (some t))
            ⟨[], false, db, 0⟩).db) := if_neg hb
    rw [hrq]
    have hdrop : ((chunks.foldl (processChunk (fun _ => true) (some t))
        ⟨[], false, db, 0⟩).db.messages.drop db.messages.length) = A := by
      rw [h1, List.drop_left]
    refine ⟨?_, ?_, ?_, ?_⟩
    · rw [hdrop, h1]
    · rw [hdrop, h2]
    · rw [hdrop]
      exact h3
    · intro w1 w2 t1 t2 db1 db2 err
      exact runQuery_resp_eq chunks err w1 w2 t1 t2 db1 db2

/-- Witness for C7: a one-text-block stream on a fresh thread satisfies the
amended theorem's hypotheses. -/
theorem persist_immediate_order_witness :
    hasResultChunk [Chunk.assistant [ContentBlock.text "hi"]] = false
    ∧ (runQuery (fun _ => true) (some 1)
        [Chunk.assistant [ContentBlock.text "hi"]] none DB.empty).1.messages
      ≠ [⟨MsgType.text, fallbackText, none⟩]
    ∧ ((runQuery (fun _ => true) (some 1)
          [Chunk.assistant [ContentBlock.text "hi"]] none DB.empty).2.messages.drop
            DB.empty.messages.length).map rowKey
      = ((runQuery (fun _ => true) (some 1)
          [Chunk.assistant [ContentBlock.text "hi"]] none DB.empty).1.messages.map
            msgKey) :=
  ⟨rfl, by decide,
   (persist_immediate_order 1 [Chunk.assistant [ContentBlock.text "hi"]] DB.empty
     rfl (by decide)).2.1⟩

lemma createMessage_thread_ids (db : DB) (t : ℕ) (ty c : String)
    (m : Option MsgMeta) :
    ((createMessage db t ty c m).1.threads.map fun th => th.id)
      = db.threads.map fun th => th.id := by
  unfold createMessage updateThreadLastMessage
  simp only [List.map_map]
  apply List.map_congr_left
  intro a _
  by_cases h : a.id = t <;> simp [h]

lemma persistMessage_thread_ids (w : ℕ → Bool) (tid : Option ℕ) (ty c : String)
    (m : Option MsgMeta) (db : DB) (wi : ℕ) :
    ((persistMessage w tid ty c m db wi).1.threads.map fun th => th.id)
      = db.threads.map fun th => th.id := by
  unfold persistMessage
  cases tid with
  | none => rfl
  | some t => by_cases h : w wi <;> simp [h, createMessage_thread_ids]

lemma pushPersist_thread_ids (w : ℕ → Bool) (t : Option ℕ) (st : RQState)
    (m : AgentMessage) (ty : String) :
    ((pushPersist w t st m ty).db.threads.map fun th => th.id)
      = st.db.threads.map fun th => th.id :=
  persistMessage_thread_ids w t ty m.content m.metadata st.db st.wi

lemma foldl_extract_thread_ids (w : ℕ → Bool) (t : Option ℕ)
    (es : List Extraction) :
    ∀ st : RQState,
    ((es.foldl
      (fun acc e =>
        pushPersist w t acc
          ⟨.method_valuation_result, savePrompt e.methodType,
            some (.methodValuation e.valuationValue e.methodType)⟩
          "method_valuation_result")
      st).db.threads.map fun th => th.id)
    = st.db.threads.map fun th => th.id := by
  induction es with
  | nil => intro st; rfl
  | cons e es ih =>
    intro st
    rw [List.foldl_cons, ih, pushPersist_thread_ids]

lemma processTextBlock_thread_ids (w : ℕ → Bool) (t : Option ℕ) (s : String)
    (st : RQState) :
    ((processTextBlock w t s st).db.threads.map fun th => th.id)
      = st.db.threads.map fun th => th.id := by
  unfold processTextBlock
  rw [foldl_extract_thread_ids, pushPersist_thread_ids]

lemma processToolUseBlock_thread_ids (w : ℕ → Bool) (t : Option ℕ)
    (name : String) (command : Option String) (st : RQState) :
    ((processToolUseBlock w t name command st).db.threads.map fun th => th.id)
      = st.db.threads.map fun th => th.id := by
  unfold processToolUseBlock
  by_cases h : name = "Bash" <;> cases command <;>
    simp [h, pushPersist_thread_ids]

lemma processChunk_thread_ids (w : ℕ → Bool) (t : Option ℕ) (st : RQState)
    (c : Chunk) :
    ((processChunk w t st c).db.threads.map fun th => th.id)
      = st.db.threads.map fun th => th.id := by
  cases c with
  | assistant blocks =>
    show ((blocks.foldl _ st).db.threads.map fun th => th.id) = _
    induction blocks generalizing st with
    | nil => rfl
    | cons b bs ih =>
      rw [List.foldl_cons]
      rw [ih]
      cases b with
      | text s => exact processTextBlock_thread_ids w t s st
      | tool_use n c => exact processToolUseBlock_thread_ids w t n c st
  | result rtext =>
    cases rtext with
    | none => rfl
    | some rt =>
      simp only [processChunk]
      split <;> rfl
  | tool_result content is_error duration_ms => exact pushPersist_thread_ids _ _ _ _ _
  | system => rfl

lemma foldl_chunks_thread_ids (w : ℕ → Bool) (t : Option ℕ)
    (chunks : List Chunk) :
    ∀ st : RQState,
    ((chunks.foldl (processChunk w t) st).db.threads.map fun th => th.id)
      = st.db.threads.map fun th => th.id := by
  induction chunks with
  | nil => intro st; rfl
  | cons c cs ih =>
    intro st
    rw [List.foldl_cons, ih, processChunk_thread_ids]

/-- A turn leaves the database at the state accumulated by the drained stream. -/
lemma runQuery_db (w : ℕ → Bool) (tid : Option ℕ) (chunks : List Chunk)
    (err : Option String) (db : DB) :
    (runQuery w tid chunks err db).2
      = (chunks.foldl (processChunk w tid) ⟨[], false, db, 0⟩).db := by
  cases err with
  | none =>
    by_cases h : (chunks.foldl (processChunk w tid)
        ⟨[], false, db, 0⟩).msgs.isEmpty = true
    · exact congrArg Prod.snd (if_pos h)
    · exact congrArg Prod.snd (if_neg h)
  | some e => rfl

/-- A turn never creates or deletes threads: the thread id list is untouched. -/
lemma runQuery_thread_ids (w : ℕ → Bool) (tid : Option ℕ) (chunks : List Chunk)
    (err : Option String) (db : DB) :
    ((runQuery w tid chunks err db).2.threads.map fun th => th.id)
      = db.threads.map fun th => th.id := by
  rw [runQuery_db]
  exact foldl_chunks_thread_ids w tid chunks _

lemma setConv_db (svc : Svc) (pid : ℕ) (c : Conversation) :
    (setConv svc pid c).db = svc.db := rfl

/-- C9 counterexample: with a persisted active thread for the project but no
in-memory state, `sendMessage` without a snapshot throws instead of restoring —
the snapshot check precedes the restoration attempt. -/
theorem snapshot_required_counterexample :
    sendMessage ⟨[], (createThread DB.empty 1 (some "T")).1, 0⟩ 1 "hi" none
        [] none (fun _ => true) [] none true (fun _ => true)
      = .error
          "No active conversation for project 1 and no project data provided to restore it"
    ∧ getActiveThreadByProject (createThread DB.empty 1 (some "T")).1 1 ≠ none := by
  constructor
  · rfl
  · decide

/-- C9 amended: `sendMessage` requires the project snapshot whenever no in-memory
state exists, even when a persisted active thread exists: without a snapshot it
throws; with a snapshot it restores from the Message Log — it succeeds, creates no
thread, and registers in-memory state on the persisted active thread. -/
theorem sendMessage_snapshot_requirement (svc : Svc) (pid : ℕ) (msg : String)
    (startChunks : List Chunk) (startErr : Option String) (wokStart : ℕ → Bool)
    (chunks : List Chunk) (err : Option String) (wokUser : Bool) (wok : ℕ → Bool)
    (hno : lookupConv svc pid = none) :
    (sendMessage svc pid msg none startChunks startErr wokStart chunks err wokUser wok
      = .error ("No active conversation for project " ++ toString pid ++
          " and no project data provided to restore it"))
    ∧ ∀ (pd : ProjectData) (th : DBThread),
        getActiveThreadByProject svc.db pid = some th →
        ∃ resp svc',
          sendMessage svc pid msg (some pd) startChunks startErr wokStart
              chunks err wokUser wok = .ok (resp, svc')
          ∧ (svc'.db.threads.map fun x => x.id) = (svc.db.threads.map fun x => x.id)
          ∧ ∃ c, lookupConv svc' pid = some c ∧ c.threadId = some th.id := by
  constructor
  · unfold sendMessage
    rw [hno]
  · intro pd th hth
    have hres : restoreConversation svc.db pid
        = some (th.id, rebuildHistory (getMessagesByThread svc.db th.id)) := by
      unfold restoreConversation
      rw [hth]
    unfold sendMessage
    rw [hno, hres]
    refine ⟨_, _, rfl, ?_, ?_⟩
    · show ((runQuery wok (some th.id) chunks err
          (if wokUser then (createMessage svc.db th.id "user" msg none).1
           else svc.db)).2.threads.map fun x => x.id)
        = svc.db.threads.map fun x => x.id
      rw [runQuery_thread_ids]
      cases wokUser
      · rfl
      · exact createMessage_thread_ids _ _ _ _ _
    · exact ⟨_, lookupConv_setConv _ _ _, rfl⟩

/-- Witness for C9: both branches of the amended theorem at a concrete state with
a persisted active thread and no in-memory conversation. -/
theorem sendMessage_snapshot_requirement_witness :
    (sendMessage ⟨[], (createThread DB.empty 1 (some "T")).1, 0⟩ 1 "hi" none
        [] none (fun _ => true) [] none true (fun _ => true)
      = .error ("No active conversation for project " ++ toString 1 ++
          " and no project data provided to restore it"))
    ∧ ∃ resp svc',
        sendMessage ⟨[], (createThread DB.empty 1 (some "T")).1, 0⟩ 1 "hi"
            (some ⟨"p"⟩) [] none (fun _ => true) [] none true (fun _ => true)
          = .ok (resp, svc')
        ∧ (svc'.db.threads.map fun x => x.id)
          = ((⟨[], (createThread DB.empty 1 (some "T")).1, 0⟩ : Svc).db.threads.map
              fun x => x.id)
        ∧ ∃ c, lookupConv svc' 1 = some c
            ∧ c.threadId = some (⟨1, 1, some "T", "active", 0⟩ : DBThread).id :=
  ⟨(sendMessage_snapshot_requirement ⟨[], (createThread DB.empty 1 (some "T")).1, 0⟩
      1 "hi" [] none (fun _ => true) [] none true (fun _ => true) rfl).1,
   (sendMessage_snapshot_requirement ⟨[], (createThread DB.empty 1 (some "T")).1, 0⟩
      1 "hi" [] none (fun _ => true) [] none true (fun _ => true) rfl).2
     ⟨"p"⟩ ⟨1, 1, some "T", "active", 0⟩ (by decide)⟩

lemma joinContents_single (a : String) :
    joinContents [⟨MsgType.text, a, none⟩] = a := by
  simp [joinContents, String.intercalate, String.intercalate.go]

/-- A turn whose stream is one assistant text block with no extractor hit. -/
lemma runQuery_single_text (w : ℕ → Bool) (tid : ℕ) (a : String) (db : DB)
    (hm : extractValuations a = []) (hw : w 0 = true) :
    runQuery w (some tid) [Chunk.assistant [ContentBlock.text a]] none db
      = (⟨[⟨MsgType.text, a, none⟩], false⟩,
         (createMessage db tid "assistant_text" a none).1) := by
  have hfold : List.foldl (processChunk w (some tid)) ⟨[], false, db, 0⟩
      [Chunk.assistant [ContentBlock.text a]]
      = ⟨[⟨MsgType.text, a, none⟩], false,
         (createMessage db tid "assistant_text" a none).1, 1⟩ := by
    show processTextBlock w (some tid) a ⟨[], false, db, 0⟩ = _
    unfold processTextBlock
    rw [hm]
    show pushPersist w (some tid) ⟨[], false, db, 0⟩ ⟨.text, a, none⟩ "assistant_text" = _
    unfold pushPersist persistMessage
    simp [hw]
  unfold runQuery
  rw [hfold]
  rfl

/-- One `sendMessage` text turn from a live in-memory conversation: the user row
and the assistant text row are persisted, and the history grows by the matching
"User:"/"Assistant:" lines. -/
lemma sendMessage_text_turn (svc : Svc) (pid tid : ℕ) (c : Conversation)
    (u a : String) (hc : lookupConv svc pid = some c) (ht : c.threadId = some tid)
    (hm : extractValuations a = []) :
    sendMessage svc pid u none [] none (fun _ => true)
        [Chunk.assistant [ContentBlock.text a]] none true (fun _ => true)
      = .ok (⟨[⟨MsgType.text, a, none⟩], false⟩,
          setConv { svc with
              db := (createMessage (createMessage svc.db tid "user" u none).1 tid
                "assistant_text" a none).1,
              agentCalls := svc.agentCalls + 1 } pid
            { c with history := c.history ++ ["User: " ++ u, "Assistant: " ++ a] }) := by
  unfold sendMessage
  simp only [hc, ht, if_true]
  rw [runQuery_single_text (fun _ => true) tid a _ hm rfl]
  simp [joinContents_single]

lemma filter_createMessage_self (db : DB) (tid : ℕ) (ty s : String) :
    ((createMessage db tid ty s none).1.messages.filter fun m => m.thread_id = tid)
      = (db.messages.filter fun m => m.thread_id = tid)
        ++ [⟨tid, ty, s, none, nextSeq db tid⟩] := by
  show ((db.messages ++ [(⟨tid, ty, s, none, nextSeq db tid⟩ : DBMessage)]).filter
    fun m => m.thread_id = tid) = _
  rw [List.filter_append]
  simp

/-- A text turn preserves readiness: the persisted history keeps round-tripping
with the in-memory one. -/
lemma readyState_after_turn (svc : Svc) (pid tid : ℕ) (c : Conversation)
    (u a : String) (ht : c.threadId = some tid)
    (hsorted : ((svc.db.messages.filter fun m => m.thread_id = tid).Pairwise
      fun x y => x.sequence_number < y.sequence_number))
    (hhist : rebuildHistory (getMessagesByThread svc.db tid) = c.history) :
    ReadyState
      (setConv { svc with
          db := (createMessage (createMessage svc.db tid "user" u none).1 tid
            "assistant_text" a none).1,
          agentCalls := svc.agentCalls + 1 } pid
        { c with history := c.history ++ ["User: " ++ u, "Assistant: " ++ a] })
      pid tid := by
  have hs1 : (((createMessage svc.db tid "user" u none).1.messages.filter
      fun m => m.thread_id = tid).Pairwise
        fun x y => x.sequence_number < y.sequence_number) :=
    filter_pairwise_lt svc.db tid hsorted (tid, "user", u, none)
  have hs2 : ((((createMessage (createMessage svc.db tid "user" u none).1 tid
      "assistant_text" a none).1).messages.filter
      fun m => m.thread_id = tid).Pairwise
        fun x y => x.sequence_number < y.sequence_number) :=
    filter_pairwise_lt _ tid hs1 (tid, "assistant_text", a, none)
  refine ⟨{ c with history := c.history ++ ["User: " ++ u, "Assistant: " ++ a] },
    lookupConv_setConv _ _ _, ht, hs2, ?_⟩
  rw [show (setConv { svc with
      db := (createMessage (createMessage svc.db tid "user" u none).1 tid
        "assistant_text" a none).1,
      agentCalls := svc.agentCalls + 1 } pid
      { c with history := c.history ++ ["User: " ++ u, "Assistant: " ++ a] }).db
    = (createMessage (createMessage svc.db tid "user" u none).1 tid
        "assistant_text" a none).1 from rfl]
  rw [getMessagesByThread_eq_filter _ _ hs2, filter_createMessage_self,
    filter_createMessage_self]
  unfold rebuildHistory
  rw [List.filterMap_append, List.filterMap_append]
  rw [getMessagesByThread_eq_filter _ _ hsorted] at hhist
  unfold rebuildHistory at hhist
  rw [hhist]
  simp

/-- C5 counterexample: one turn whose reply stream is a single tool invocation.
The in-memory history absorbs the tool-call and executing telemetry into one
"Assistant:" line, while the rebuilt history (only `user`/`assistant_text` rows)
does not — the round trip fails and the history is not restricted to
assistant-text content. -/
theorem history_roundtrip_counterexample :
    ((okState (sendMessage
        ⟨[(1, ⟨[], ⟨"p"⟩, some 1⟩)], (createThread DB.empty 1 (some "T")).1, 0⟩
        1 "hi" none [] none (fun _ => true)
        [Chunk.assistant [ContentBlock.tool_use "Read" none]] none true
        (fun _ => true))).map fun s => rebuildHistory (getMessagesByThread s.db 1))
      = some ["User: hi"]
    ∧ ((okState (sendMessage
        ⟨[(1, ⟨[], ⟨"p"⟩, some 1⟩)], (createThread DB.empty 1 (some "T")).1, 0⟩
        1 "hi" none [] none (fun _ => true)
        [Chunk.assistant [ContentBlock.tool_use "Read" none]] none true
        (fun _ => true))).bind fun s => (lookupConv s 1).map fun c => c.history)
      = some ["User: hi", "Assistant: Using Read tool\nExecuting Read..."]
    ∧ (["User: hi"] : List String)
      ≠ ["User: hi", "Assistant: Using Read tool\nExecuting Read..."] := by
  refine ⟨by decide, by decide, by decide⟩

/-- C5 amended: the round-trip law holds for sessions whose turns each return a
single assistant text block with no extraction hit (and all log writes succeed):
rebuilding history from the thread's persisted `user`/`assistant_text` rows in
sequence order reproduces exactly the in-memory history.  In general the
in-memory history concatenates the contents of all returned messages — including
tool-call, code, executing and extraction-prompt telemetry — into one
"Assistant:" line per turn, so the law fails as soon as a turn returns anything
but one text message (see the counterexample). -/
theorem history_roundtrip_text_only (pid tid : ℕ) (turns : List (String × String)) :
    ∀ svc : Svc, ReadyState svc pid tid →
    (∀ t ∈ turns, extractValuations t.2 = []) →
    ReadyState (playTurns pid svc turns) pid tid := by
  induction turns with
  | nil => intro svc h _; exact h
  | cons t ts ih =>
    intro svc h hmk
    obtain ⟨c, hc, ht, hsorted, hhist⟩ := h
    unfold playTurns
    rw [sendMessage_text_turn svc pid tid c t.1 t.2 hc ht
      (hmk t (List.mem_cons_self _ _))]
    exact ih _ (readyState_after_turn svc pid tid c t.1 t.2 ht hsorted hhist)
      fun x hx => hmk x (List.mem_cons_of_mem _ hx)

/-- Witness for C5: a ready single-thread state playing two marker-free turns. -/
theorem history_roundtrip_text_only_witness :
    ReadyState
      (playTurns 1
        ⟨[(1, ⟨[], ⟨"p"⟩, some 1⟩)], (createThread DB.empty 1 (some "T")).1, 0⟩
        [("hello", "Hi there."), ("thanks", "You are welcome.")])
      1 1 :=
  history_roundtrip_text_only 1 1 [("hello", "Hi there."), ("thanks", "You are welcome.")]
    ⟨[(1, ⟨[], ⟨"p"⟩, some 1⟩)], (createThread DB.empty 1 (some "T")).1, 0⟩
    ⟨⟨[], ⟨"p"⟩, some 1⟩, rfl, rfl, by decide, rfl⟩
    (by decide)

end ValAgent
